import Mathlib

/-!
Verification of the prove pass of the SSA back end
(src/src/cmd/compile/internal/ssa/prove.go).

Shallow embedding conventions:
- A relation mask is a 3-bit value, embedded as Fin 8 (the Go type is uint,
  but every mask the program builds or stores is below 8, and the Go array
  reverseBits has exactly 8 entries, so indexing outside 0..7 would panic).
- A domain is a Nat bit mask (signed, unsigned, pointer, boolean bits).
- A pointer to an SSA value is embedded as Option Nat, holding the stable
  value ID; none models the nil pointer. SSA gives every value a distinct
  ID, so pointer equality coincides with ID equality.
- The Go map facts is embedded as a function pair to Option relation, where
  none models an absent key; the undo slice stack is a Lean list whose head
  is the top of the Go slice (its last element).
- Functions that mutate the table in Go return the new table here.
- Diagnostic warnings (guarded by a debug flag) have no observable effect
  on results and are omitted from the embedding.
-/

namespace Ssa

/-- Relation mask over the atoms lt, eq, gt; a 3-bit set, embedded as Fin 8. -/
abbrev relation : Type := Fin 8

/-- Go: lt relation = 1 << iota. -/
def lt : relation := 1

/-- Go: eq = 2. -/
def eq : relation := 2

/-- Go: gt = 4. -/
def gt : relation := 4

/-- Bitwise and of two masks, Go expression a & b. The mod 8 is a no-op
since both operands are already below 8. -/
def rand (a b : relation) : relation :=
  ⟨(a.val &&& b.val) % 8, Nat.mod_lt _ (by decide)⟩

/-- Bitwise or of two masks, Go expression a | b. The mod 8 is a no-op. -/
def ror (a b : relation) : relation :=
  ⟨(a.val ||| b.val) % 8, Nat.mod_lt _ (by decide)⟩

/-- Bitwise xor of two masks, Go expression a ^ b. The mod 8 is a no-op. -/
def rxor (a b : relation) : relation :=
  ⟨(a.val ^^^ b.val) % 8, Nat.mod_lt _ (by decide)⟩

/-- The full mask lt | eq | gt, meaning any order is possible. -/
def any : relation := ror lt (ror eq gt)

/-- Mask inclusion: every bit of a lies inside b, written in the form the
Go code tests it, b & a == a. -/
def sub (a b : relation) : Prop := rand b a = a

instance (a b : relation) : Decidable (sub a b) := by
  unfold sub; infer_instance

/-- Go: var reverseBits = [...]relation{0, 4, 2, 6, 1, 5, 3, 7}. Indexing
the 8-entry array is embedded as a total function on Fin 8. -/
def reverseBits : relation → relation
  | ⟨0, _⟩ => 0
  | ⟨1, _⟩ => 4
  | ⟨2, _⟩ => 2
  | ⟨3, _⟩ => 6
  | ⟨4, _⟩ => 1
  | ⟨5, _⟩ => 5
  | ⟨6, _⟩ => 3
  | ⟨7, _⟩ => 7
  | ⟨n + 8, h⟩ => absurd h (by omega)

/-- Domain bit mask, Go type domain uint. -/
abbrev domain : Type := Nat

/-- Go: signed domain = 1 << iota. -/
def signed : domain := 1

/-- Go: unsigned = 2. -/
def unsigned : domain := 2

/-- Go: pointer = 4. -/
def pointer : domain := 4

/-- Go: boolean = 8. -/
def boolean : domain := 8

/-- Go struct pair: a pair of value pointers (embedded by their IDs, none
for nil) plus a domain. -/
structure pair where
  v : Option Nat
  w : Option Nat
  d : domain
deriving DecidableEq

/-- Go struct fact: a pair plus a relation for that pair. -/
structure fact where
  p : pair
  r : relation
deriving DecidableEq

/-- Go: var checkpointFact = fact{}; the zero value of fact, used as the
marker separating undo-stack regions. -/
def checkpointFact : fact := ⟨⟨none, none, 0⟩, 0⟩

/-- Go struct factsTable: the current facts map and the undo stack. -/
structure factsTable where
  facts : pair → Option relation
  stack : List fact

/-- Go func lessByID. -/
def lessByID (v w : Option Nat) : Bool :=
  match v, w with
  | none, none => false
  | none, some _ => true
  | some _, none => false
  | some i, some j => decide (i < j)

/-- Go func newFactsTable. Note make([]fact, 4) builds a slice of LENGTH
four whose elements are the zero value of fact, i.e. four copies of
checkpointFact, not an empty slice of capacity four. -/
def newFactsTable : factsTable where
  facts := fun _ => none
  stack := List.replicate 4 checkpointFact

/-- Go method get on factsTable: the known possible relations between v
and w in domain d, with canonicalization by lessByID and the defaults eq
(identical operands) and lt or eq or gt (unrelated operands). -/
def factsTable.get (ft : factsTable) (v w : Option Nat) (d : domain) : relation :=
  let reversed := lessByID w v
  let p : pair := if reversed then ⟨w, v, d⟩ else ⟨v, w, d⟩
  let r : relation :=
    match ft.facts p with
    | some r => r
    | none => if p.v = p.w then eq else ror lt (ror eq gt)
  if reversed then reverseBits r else r

/-- Go method update on factsTable: restrict the relation between v and w
in domain d to r, pushing the previous mask on the undo stack. -/
def factsTable.update (ft : factsTable) (v w : Option Nat) (d : domain) (r : relation) :
    factsTable :=
  let swapped := lessByID w v
  let p : pair := if swapped then ⟨w, v, d⟩ else ⟨v, w, d⟩
  let r : relation := if swapped then reverseBits r else r
  let oldR := ft.get p.v p.w d
  { facts := fun q => if q = p then some (rand oldR r) else ft.facts q
    stack := ⟨p, oldR⟩ :: ft.stack }

/-- Go method checkpoint: push the marker fact. -/
def factsTable.checkpoint (ft : factsTable) : factsTable :=
  { ft with stack := checkpointFact :: ft.stack }

/-- The body of the restore loop: reinstate one undo entry into the map
(delete the key when the saved mask was the full mask lt | eq | gt). -/
def undoEntry (old : fact) (facts : pair → Option relation) : pair → Option relation :=
  fun q => if q = old.p then (if old.r = any then none else some old.r) else facts q

/-- The restore loop of Go method restore: pop entries, reinstating each,
until a marker is consumed. Go indexes stack[len(stack)-1]; on an empty
stack Go would panic, here the pair is returned unchanged. -/
def restoreAux : (pair → Option relation) → List fact → ((pair → Option relation) × List fact)
  | facts, [] => (facts, [])
  | facts, old :: rest =>
    if old = checkpointFact then (facts, rest)
    else restoreAux (undoEntry old facts) rest

/-- Go method restore on factsTable. -/
def factsTable.restore (ft : factsTable) : factsTable :=
  let fs := restoreAux ft.facts ft.stack
  { facts := fs.1, stack := fs.2 }

/-! Auxiliary notions about table states, used to state and prove the
claims: the observed value of a key (stored mask, or the get default),
observational equivalence of maps, canonical single-key refinement,
invariants of reachable states, and operation sequences. -/

/-- The default mask get uses for an absent key. -/
def defaultR (p : pair) : relation := if p.v = p.w then eq else any

/-- The mask a canonical (already ordered) probe of key p observes in map
M: the stored mask when present, the get default otherwise. -/
def interp (M : pair → Option relation) (p : pair) : relation :=
  match M p with
  | some r => r
  | none => defaultR p

/-- Observational equivalence of two fact maps: every canonical probe
observes the same mask. -/
def mapEquiv (M N : pair → Option relation) : Prop :=
  ∀ p : pair, interp M p = interp N p

/-- The facts map produced by one canonical update step: key p is
restricted by r, every other key is unchanged. -/
def mUpdate (M : pair → Option relation) (p : pair) (r : relation) :
    pair → Option relation :=
  fun q => if q = p then some (rand (interp M p) r) else M q

/-- Diagonal invariant of the facts map: a key with identical operands
stores nothing, the empty mask, or eq. -/
def InvD (M : pair → Option relation) : Prop :=
  ∀ p : pair, p.v = p.w → M p = none ∨ M p = some 0 ∨ M p = some eq

/-- Diagonal invariant of the undo stack: a pushed entry for a key with
identical operands saved the empty mask or eq. -/
def InvS (s : List fact) : Prop :=
  ∀ e ∈ s, e.p.v = e.p.w → e.r = 0 ∨ e.r = eq

/-- The weak diagonal invariant needed for the round-trip argument: a key
with identical operands is never present with the full mask. -/
def Inv (M : pair → Option relation) : Prop :=
  ∀ p : pair, p.v = p.w → M p ≠ some any

/-- Table states reachable from newFactsTable through the public
operations. Probes (get) do not change the state. -/
inductive Reachable : factsTable → Prop where
  | new : Reachable newFactsTable
  | upd (v w : Option Nat) (d : domain) (r : relation) {ft : factsTable} :
      Reachable ft → Reachable (ft.update v w d r)
  | cp {ft : factsTable} : Reachable ft → Reachable ft.checkpoint
  | rst {ft : factsTable} : Reachable ft → Reachable ft.restore

/-- One operation of a bracketed sequence: an update, or a probe (which
does not mutate the table). -/
inductive tableOp where
  | upd (v w : Option Nat) (d : domain) (r : relation)
  | getq (v w : Option Nat) (d : domain)

/-- Effect of one operation on the table; get has none. -/
def applyOp (ft : factsTable) : tableOp → factsTable
  | .upd v w d r => ft.update v w d r
  | .getq _ _ _ => ft

/-- Effect of a sequence of operations, first element first. -/
def runOps (ft : factsTable) (ops : List tableOp) : factsTable :=
  ops.foldl applyOp ft

/-- An update whose pushed undo entry can collide with the zero-valued
marker fact: both operands nil and domain 0. -/
def degenerateOp : tableOp → Bool
  | .upd none none 0 _ => true
  | _ => false

/-! The SSA values, opcodes and blocks consumed by the pass. The opcode
vocabulary is external to the file (defined by the host IR); the
constructors below are the opcodes prove.go names, plus OpOther standing
for every other opcode. -/

inductive Op where
  | OpEq8 | OpEq16 | OpEq32 | OpEq64 | OpEqPtr
  | OpNeq8 | OpNeq16 | OpNeq32 | OpNeq64 | OpNeqPtr
  | OpLess8 | OpLess8U | OpLess16 | OpLess16U
  | OpLess32 | OpLess32U | OpLess64 | OpLess64U
  | OpLeq8 | OpLeq8U | OpLeq16 | OpLeq16U
  | OpLeq32 | OpLeq32U | OpLeq64 | OpLeq64U
  | OpGeq8 | OpGeq8U | OpGeq16 | OpGeq16U
  | OpGeq32 | OpGeq32U | OpGeq64 | OpGeq64U
  | OpGreater8 | OpGreater8U | OpGreater16 | OpGreater16U
  | OpGreater32 | OpGreater32U | OpGreater64 | OpGreater64U
  | OpIsInBounds | OpIsSliceInBounds
  | OpConst64 | OpStringLen | OpSliceLen | OpSliceCap
  | OpZeroExt8to64 | OpZeroExt16to64 | OpZeroExt32to64
  | OpRsh64x64
  | OpOther (n : Nat)

/-- An injective numeric code for opcodes. Opcode equality is decided
through it; the derived decision procedure for a 53-constructor inductive
is a prohibitively deep term. -/
def Op.code : Op → Nat
  | .OpEq8 => 0
  | .OpEq16 => 1
  | .OpEq32 => 2
  | .OpEq64 => 3
  | .OpEqPtr => 4
  | .OpNeq8 => 5
  | .OpNeq16 => 6
  | .OpNeq32 => 7
  | .OpNeq64 => 8
  | .OpNeqPtr => 9
  | .OpLess8 => 10
  | .OpLess8U => 11
  | .OpLess16 => 12
  | .OpLess16U => 13
  | .OpLess32 => 14
  | .OpLess32U => 15
  | .OpLess64 => 16
  | .OpLess64U => 17
  | .OpLeq8 => 18
  | .OpLeq8U => 19
  | .OpLeq16 => 20
  | .OpLeq16U => 21
  | .OpLeq32 => 22
  | .OpLeq32U => 23
  | .OpLeq64 => 24
  | .OpLeq64U => 25
  | .OpGeq8 => 26
  | .OpGeq8U => 27
  | .OpGeq16 => 28
  | .OpGeq16U => 29
  | .OpGeq32 => 30
  | .OpGeq32U => 31
  | .OpGeq64 => 32
  | .OpGeq64U => 33
  | .OpGreater8 => 34
  | .OpGreater8U => 35
  | .OpGreater16 => 36
  | .OpGreater16U => 37
  | .OpGreater32 => 38
  | .OpGreater32U => 39
  | .OpGreater64 => 40
  | .OpGreater64U => 41
  | .OpIsInBounds => 42
  | .OpIsSliceInBounds => 43
  | .OpConst64 => 44
  | .OpStringLen => 45
  | .OpSliceLen => 46
  | .OpSliceCap => 47
  | .OpZeroExt8to64 => 48
  | .OpZeroExt16to64 => 49
  | .OpZeroExt32to64 => 50
  | .OpRsh64x64 => 51
  | .OpOther n => 52 + n

/-- The opcodes with codes 0 to 51, in order. -/
def opDecodeList : List Op :=
  [.OpEq8, .OpEq16, .OpEq32, .OpEq64, .OpEqPtr,
   .OpNeq8, .OpNeq16, .OpNeq32, .OpNeq64, .OpNeqPtr,
   .OpLess8, .OpLess8U, .OpLess16, .OpLess16U,
   .OpLess32, .OpLess32U, .OpLess64, .OpLess64U,
   .OpLeq8, .OpLeq8U, .OpLeq16, .OpLeq16U,
   .OpLeq32, .OpLeq32U, .OpLeq64, .OpLeq64U,
   .OpGeq8, .OpGeq8U, .OpGeq16, .OpGeq16U,
   .OpGeq32, .OpGeq32U, .OpGeq64, .OpGeq64U,
   .OpGreater8, .OpGreater8U, .OpGreater16, .OpGreater16U,
   .OpGreater32, .OpGreater32U, .OpGreater64, .OpGreater64U,
   .OpIsInBounds, .OpIsSliceInBounds,
   .OpConst64, .OpStringLen, .OpSliceLen, .OpSliceCap,
   .OpZeroExt8to64, .OpZeroExt16to64, .OpZeroExt32to64,
   .OpRsh64x64]

/-- The inverse of Op.code. -/
def Op.decode (n : Nat) : Op := opDecodeList.getD n (.OpOther (n - 52))

/-- Decoding is a left inverse of coding, so the code is injective. -/
def Op.decode_code : ∀ a : Op, Op.decode a.code = a := by
  intro a
  cases a with
  | OpOther n =>
    show opDecodeList.getD (52 + n) (Op.OpOther (52 + n - 52)) = Op.OpOther n
    have hlen : opDecodeList.length = 52 := rfl
    rw [List.getD_eq_default _ _ (by omega)]
    congr 1
    omega
  | _ => rfl

instance : DecidableEq Op := fun a b =>
  if h : a.code = b.code then
    isTrue (by rw [← Op.decode_code a, ← Op.decode_code b, h])
  else
    isFalse (fun hab => h (by rw [hab]))

/-- An SSA value: stable ID, opcode, integer payload (AuxInt), and
argument values. -/
inductive Value where
  | mk (id : Nat) (op : Op) (auxInt : Int) (args : List Value)

/-- The ID field of a value. -/
def Value.id : Value → Nat
  | ⟨i, _, _, _⟩ => i

/-- The Op field of a value. -/
def Value.op : Value → Op
  | ⟨_, o, _, _⟩ => o

/-- The AuxInt field of a value. -/
def Value.auxInt : Value → Int
  | ⟨_, _, a, _⟩ => a

/-- The Args field of a value. -/
def Value.args : Value → List Value
  | ⟨_, _, _, a⟩ => a

/-- Go func isNonNegative. Go reads v.Args[0] in the OpRsh64x64 case and
would panic on an empty argument list; the IR guarantees two arguments
there, and the embedding returns false on the impossible empty list. -/
def isNonNegative : Value → Bool
  | ⟨_, op, auxInt, args⟩ =>
    match op with
    | .OpConst64 => decide (0 ≤ auxInt)
    | .OpStringLen | .OpSliceLen | .OpSliceCap
    | .OpZeroExt8to64 | .OpZeroExt16to64 | .OpZeroExt32to64 => true
    | .OpRsh64x64 =>
      match args with
      | a :: _ => isNonNegative a
      | [] => false
    | _ => false

/-- Block kinds the pass distinguishes; BlockOther stands for every kind
other than BlockIf and BlockFirst. -/
inductive BlockKind where
  | BlockIf
  | BlockFirst
  | BlockOther (n : Nat)
deriving DecidableEq

/-- An SSA block: ID, kind, control value, successors (index 0 positive,
index 1 negative) and predecessors (only their number matters here, the
embedding records their IDs). -/
inductive Block where
  | mk (id : Nat) (kind : BlockKind) (control : Option Value)
       (succs : List Block) (preds : List Nat)

/-- The Kind field of a block. -/
def Block.kind : Block → BlockKind
  | ⟨_, k, _, _, _⟩ => k

/-- The Control field of a block. -/
def Block.control : Block → Option Value
  | ⟨_, _, c, _, _⟩ => c

/-- The Succs field of a block. -/
def Block.succs : Block → List Block
  | ⟨_, _, _, s, _⟩ => s

/-- The Preds field of a block. -/
def Block.preds : Block → List Nat
  | ⟨_, _, _, _, p⟩ => p

/-- Go type branch with its three constants. -/
inductive branch where
  | unknown
  | positive
  | negative
deriving DecidableEq

/-- Go func getBranch. The sparse dominator tree is passed as its
isAncestorEq query. Go reads p.Succs[0] and p.Succs[1] and would panic on
an If block with fewer than two successors; the IR guarantees two, and
the embedding returns unknown on the impossible short list. -/
def getBranch (isAncestorEq : Block → Block → Bool) (p : Option Block) (b : Block) : branch :=
  match p with
  | none => .unknown
  | some p =>
    if p.kind ≠ BlockKind.BlockIf then .unknown
    else
      match p.succs with
      | s0 :: s1 :: _ =>
        if isAncestorEq s0 b ∧ s0.preds.length = 1 then .positive
        else if isAncestorEq s1 b ∧ s1.preds.length = 1 then .negative
        else .unknown
      | _ => .unknown

/-- Go: domainRelationTable, the static map from comparison opcode to the
domain union it reasons in and the relation asserted when the condition
is true. -/
def domainRelationTable : Op → Option (domain × relation)
  | .OpEq8 | .OpEq16 | .OpEq32 | .OpEq64 => some (signed ||| unsigned, eq)
  | .OpEqPtr => some (pointer, eq)
  | .OpNeq8 | .OpNeq16 | .OpNeq32 | .OpNeq64 => some (signed ||| unsigned, ror lt gt)
  | .OpNeqPtr => some (pointer, ror lt gt)
  | .OpLess8 | .OpLess16 | .OpLess32 | .OpLess64 => some (signed, lt)
  | .OpLess8U | .OpLess16U | .OpLess32U | .OpLess64U => some (unsigned, lt)
  | .OpLeq8 | .OpLeq16 | .OpLeq32 | .OpLeq64 => some (signed, ror lt eq)
  | .OpLeq8U | .OpLeq16U | .OpLeq32U | .OpLeq64U => some (unsigned, ror lt eq)
  | .OpGeq8 | .OpGeq16 | .OpGeq32 | .OpGeq64 => some (signed, ror eq gt)
  | .OpGeq8U | .OpGeq16U | .OpGeq32U | .OpGeq64U => some (unsigned, ror eq gt)
  | .OpGreater8 | .OpGreater16 | .OpGreater32 | .OpGreater64 => some (signed, gt)
  | .OpGreater8U | .OpGreater16U | .OpGreater32U | .OpGreater64U => some (unsigned, gt)
  | .OpIsInBounds => some (unsigned, lt)
  | .OpIsSliceInBounds => some (unsigned, ror lt eq)
  | _ => none

/-- The domain loop of Go func simplifyBlock: for d := domain(1);
d <= tr.d; d <<= 1, skipping bits outside tr.d, testing whether the
current mask forces the positive or the negative branch. The extra fuel
argument is only a termination device: the loop doubles d starting from
1 and stops once d exceeds trD, so trD + 1 units of fuel always
suffice. -/
def simplifyDomLoop (getd : domain → relation) (trD : domain) (trR : relation) :
    Nat → domain → branch
  | 0, _ => .unknown
  | fuel + 1, d =>
    if trD < d then .unknown
    else if d &&& trD = 0 then simplifyDomLoop getd trD trR fuel (d <<< 1)
    else
      let m := getd d
      if m ≠ 0 ∧ rand trR m = m then .positive
      else if m ≠ 0 ∧ rand (rxor (ror lt (ror eq gt)) trR) m = m then .negative
      else simplifyDomLoop getd trD trR fuel (d <<< 1)

/-- Go func simplifyBlock. Diagnostic warnings are omitted (they have no
effect on the result). Go dereferences b.Control after the boolean test
and c.Args[0], c.Args[1] for table opcodes; on a nil control or a short
argument list Go would panic, the embedding returns unknown in those
impossible states. -/
def simplifyBlock (ft : factsTable) (b : Block) : branch :=
  if b.kind ≠ BlockKind.BlockIf then .unknown
  else
    let m := ft.get none (b.control.map Value.id) boolean
    if m = ror lt gt then .positive
    else if m = eq then .negative
    else
      match b.control with
      | none => .unknown
      | some c =>
        match domainRelationTable c.op with
        | none => .unknown
        | some (trD, trR) =>
          match c.args with
          | a0 :: a1 :: _ =>
            match simplifyDomLoop (fun d => ft.get (some a0.id) (some a1.id) d)
                trD trR (trD + 1) 1 with
            | .unknown =>
              if (c.op = Op.OpIsInBounds ∨ c.op = Op.OpIsSliceInBounds) ∧ isNonNegative a0 then
                let m2 := ft.get (some a0.id) (some a1.id) signed
                if m2 ≠ 0 ∧ rand trR m2 = m2 then .positive
                else .unknown
              else .unknown
            | r => r
          | _ => .unknown

/-! Claim-side definitions for the relational step of simplifyBlock,
written from the words of the specification (iterate the single-bit
domains of the domain union in ascending bit order; the first domain
whose mask decides forces the branch; an empty mask never decides; when
no domain decides, fall through to the non-negative bounds shortcut). -/

/-- Modelled from the spec: the single-domain test of the iteration. -/
def claimDecide (getd : domain → relation) (rPos : relation) (d : domain) : Option branch :=
  let m := getd d
  if m ≠ 0 ∧ sub m rPos then some .positive
  else if m ≠ 0 ∧ sub m (rxor any rPos) then some .negative
  else none

/-- Modelled from the spec: iterate the single-bit domains of dU in
ascending bit order and return the first decision, if any. -/
def claimIterate (getd : domain → relation) (dU : domain) (rPos : relation) : Option branch :=
  (([1, 2, 4, 8] : List domain).filter (fun d => d &&& dU != 0)).findSome?
    (claimDecide getd rPos)

/-- Modelled from the spec: the non-negative bounds shortcut that runs
when no iterated domain decides. -/
def claimShortcut (ft : factsTable) (c a0 a1 : Value) (rPos : relation) : branch :=
  if (c.op = Op.OpIsInBounds ∨ c.op = Op.OpIsSliceInBounds) ∧ isNonNegative a0 then
    let m := ft.get (some a0.id) (some a1.id) signed
    if m ≠ 0 ∧ sub m rPos then .positive
    else .unknown
  else .unknown

/-! Concrete objects used by counterexamples and witnesses. -/

/-- The operation sequence of the round-trip counterexample: one
observable update, then two updates on the nil pair in domain 0; the
second of those pushes an undo entry equal to the zero-valued marker. -/
def c1ops : List tableOp :=
  [.upd (some 1) (some 2) signed lt, .upd none none 0 lt, .upd none none 0 lt]

/-- Argument 0 of the simplifyBlock counterexample: a non-negative
constant. -/
def cexA0 : Value := ⟨1, .OpConst64, 0, []⟩

/-- Argument 1 of the simplifyBlock counterexample. -/
def cexA1 : Value := ⟨2, .OpSliceLen, 0, []⟩

/-- Control value of the simplifyBlock counterexample: a bounds check. -/
def cexCtl : Value := ⟨3, .OpIsInBounds, 0, [cexA0, cexA1]⟩

/-- The If block of the simplifyBlock counterexample. -/
def cexBlock : Block := ⟨10, .BlockIf, some cexCtl, [], []⟩

/-- A table where the unsigned mask of the argument pair is empty but the
signed mask forces the positive branch. -/
def cexFT : factsTable :=
  ((newFactsTable.update (some 1) (some 2) unsigned lt).update
      (some 1) (some 2) unsigned gt).update (some 1) (some 2) signed lt

/-! Helper lemmas: relation-mask algebra (finite, settled by decide) and
the order lessByID. -/

theorem reverse_reverse : ∀ r : relation, reverseBits (reverseBits r) = r := by decide

theorem reverse_rand : ∀ a b : relation,
    reverseBits (rand a b) = rand (reverseBits a) (reverseBits b) := by decide

theorem rand_self : ∀ a : relation, rand a a = a := by decide

theorem rand_ne_any : ∀ a b : relation, a ≠ any → rand a b ≠ any := by decide

theorem rand_eq_cases : ∀ b : relation, rand eq b = 0 ∨ rand eq b = eq := by decide

theorem rand_zero : ∀ b : relation, rand 0 b = 0 := by decide

theorem reverse_fix_eq : reverseBits eq = eq := by decide

theorem reverse_fix_zero : reverseBits 0 = 0 := by decide

theorem lessByID_irrefl (v : Option Nat) : lessByID v v = false := by
  cases v <;> simp [lessByID]

theorem lessByID_asymm {v w : Option Nat} (h : lessByID v w = true) :
    lessByID w v = false := by
  cases v <;> cases w <;> simp_all [lessByID]
  omega

theorem lessByID_total {v w : Option Nat} (h : v ≠ w) :
    lessByID v w = true ∨ lessByID w v = true := by
  cases v <;> cases w <;> simp_all [lessByID]

/-! Helper lemmas: get and update in canonical form. -/

theorem get_eq_interp (ft : factsTable) (v w : Option Nat) (d : domain) :
    ft.get v w d =
      if lessByID w v then reverseBits (interp ft.facts ⟨w, v, d⟩)
      else interp ft.facts ⟨v, w, d⟩ := by
  by_cases h : lessByID w v = true
  · simp only [factsTable.get, h, if_true, interp, defaultR, any]
  · simp only [Bool.not_eq_true] at h
    simp only [factsTable.get, h, Bool.false_eq_true, if_false, interp, defaultR, any]

theorem update_canon (ft : factsTable) (v w : Option Nat) (d : domain) (r : relation) :
    ∃ (p : pair) (rc : relation),
      ft.update v w d r = ⟨mUpdate ft.facts p rc, ⟨p, interp ft.facts p⟩ :: ft.stack⟩ ∧
      p.d = d ∧ (p.v = none → p.w = none → v = none ∧ w = none) := by
  by_cases h : lessByID w v = true
  · refine ⟨⟨w, v, d⟩, reverseBits r, ?_, rfl, ?_⟩
    · have hvw : lessByID v w = false := lessByID_asymm h
      simp only [factsTable.update, h, if_true, mUpdate, get_eq_interp, hvw,
        Bool.false_eq_true, if_false]
      rfl
    · intro hw hv
      subst hw hv
      simp [lessByID] at h
  · simp only [Bool.not_eq_true] at h
    refine ⟨⟨v, w, d⟩, r, ?_, rfl, fun hv hw => ⟨hv, hw⟩⟩
    simp only [factsTable.update, h, Bool.false_eq_true, if_false, mUpdate,
      get_eq_interp, interp, defaultR]
    rfl

/-! Helper lemmas: the observed mask interp and observational
equivalence. -/

theorem interp_some {M : pair → Option relation} {q : pair} {r : relation}
    (h : M q = some r) : interp M q = r := by
  unfold interp
  rw [h]

theorem interp_none {M : pair → Option relation} {q : pair}
    (h : M q = none) : interp M q = defaultR q := by
  unfold interp
  rw [h]

theorem interp_congr_at {M N : pair → Option relation} {q : pair}
    (h : M q = N q) : interp M q = interp N q := by
  unfold interp
  rw [h]

theorem mapEquiv_refl (M : pair → Option relation) : mapEquiv M M :=
  fun _ => rfl

theorem mapEquiv_trans {M N K : pair → Option relation}
    (h1 : mapEquiv M N) (h2 : mapEquiv N K) : mapEquiv M K :=
  fun p => (h1 p).trans (h2 p)

theorem get_congr {M N : pair → Option relation} (h : mapEquiv M N)
    (s1 s2 : List fact) (v w : Option Nat) (d : domain) :
    factsTable.get ⟨M, s1⟩ v w d = factsTable.get ⟨N, s2⟩ v w d := by
  rw [get_eq_interp, get_eq_interp]
  by_cases hl : lessByID w v = true
  · simp only [hl, if_true]
    rw [show interp (factsTable.facts ⟨M, s1⟩) ⟨w, v, d⟩ = interp N ⟨w, v, d⟩ from h ⟨w, v, d⟩]
  · simp only [Bool.not_eq_true] at hl
    simp only [hl, Bool.false_eq_true, if_false]
    exact h ⟨v, w, d⟩

/-! Helper lemmas: a single undo entry reverses a single canonical
update, up to observational equivalence, on maps satisfying the weak
diagonal invariant. -/

theorem interp_ne_any_of_inv {M : pair → Option relation} (hInv : Inv M)
    {p : pair} (hd : p.v = p.w) : interp M p ≠ any := by
  cases hM : M p with
  | none =>
    rw [interp_none hM]
    unfold defaultR
    simp only [hd, if_pos]
    decide
  | some m =>
    rw [interp_some hM]
    intro hcon
    exact hInv p hd (hcon ▸ hM)

theorem undoEntry_congr (e : fact) {M N : pair → Option relation}
    (h : mapEquiv M N) : mapEquiv (undoEntry e M) (undoEntry e N) := by
  intro q
  by_cases hq : q = e.p
  · exact interp_congr_at (by simp [undoEntry, hq])
  · calc interp (undoEntry e M) q
        = interp M q := interp_congr_at (by simp [undoEntry, hq])
      _ = interp N q := h q
      _ = interp (undoEntry e N) q := (interp_congr_at (by simp [undoEntry, hq])).symm

theorem undo_mUpdate {M : pair → Option relation} (hInv : Inv M)
    (p : pair) (r : relation) :
    mapEquiv (undoEntry ⟨p, interp M p⟩ (mUpdate M p r)) M := by
  intro q
  by_cases hq : q = p
  · subst hq
    by_cases hA : interp M q = any
    · have hdq : defaultR q = any := by
        cases hM : M q with
        | none => rw [interp_none hM] at hA; exact hA
        | some m =>
          have hm : m = any := by rw [interp_some hM] at hA; exact hA
          by_cases hd : q.v = q.w
          · exact absurd (hm ▸ hM) (hInv q hd)
          · unfold defaultR
            simp [hd]
      have h1 : undoEntry ⟨q, interp M q⟩ (mUpdate M q r) q = none := by
        simp [undoEntry, hA]
      calc interp (undoEntry ⟨q, interp M q⟩ (mUpdate M q r)) q
          = defaultR q := interp_none h1
        _ = any := hdq
        _ = interp M q := hA.symm
    · have h1 : undoEntry ⟨q, interp M q⟩ (mUpdate M q r) q = some (interp M q) := by
        simp [undoEntry, hA]
      exact interp_some h1
  · exact interp_congr_at (by simp [undoEntry, mUpdate, hq])

theorem foldl_undo_congr (l : List fact) :
    ∀ {M N : pair → Option relation}, mapEquiv M N →
      mapEquiv (l.foldl (fun m e => undoEntry e m) M) (l.foldl (fun m e => undoEntry e m) N) := by
  induction l with
  | nil => intro M N h; exact h
  | cons e rest ih =>
    intro M N h
    simp only [List.foldl_cons]
    exact ih (undoEntry_congr e h)

/-! Helper lemmas: the invariants are established by newFactsTable and
preserved by every public operation. -/

theorem inv_mUpdate {M : pair → Option relation} (hInv : Inv M)
    (p : pair) (r : relation) : Inv (mUpdate M p r) := by
  intro q hq
  by_cases hqp : q = p
  · subst hqp
    have h1 : mUpdate M q r q = some (rand (interp M q) r) := by simp [mUpdate]
    rw [h1]
    intro hcon
    have h2 : rand (interp M q) r = any := by injection hcon
    exact rand_ne_any _ _ (interp_ne_any_of_inv hInv hq) h2
  · have h1 : mUpdate M p r q = M q := by simp [mUpdate, hqp]
    rw [h1]
    exact hInv q hq

theorem interp_diag {M : pair → Option relation} (h : InvD M) {p : pair}
    (hd : p.v = p.w) : interp M p = 0 ∨ interp M p = eq := by
  rcases h p hd with hM | hM | hM
  · right
    rw [interp_none hM]
    unfold defaultR
    simp [hd]
  · left
    exact interp_some hM
  · right
    exact interp_some hM

theorem invD_inv {M : pair → Option relation} (h : InvD M) : Inv M := by
  intro p hp
  rcases h p hp with h1 | h1 | h1 <;> rw [h1] <;> simp <;> decide

theorem invD_invS_update (ft : factsTable) (hD : InvD ft.facts) (hS : InvS ft.stack)
    (v w : Option Nat) (d : domain) (r : relation) :
    InvD (ft.update v w d r).facts ∧ InvS (ft.update v w d r).stack := by
  obtain ⟨p, rc, hup, -, -⟩ := update_canon ft v w d r
  rw [hup]
  constructor
  · intro q hq
    by_cases hqp : q = p
    · subst hqp
      show mUpdate ft.facts q rc q = none ∨ mUpdate ft.facts q rc q = some 0 ∨
        mUpdate ft.facts q rc q = some eq
      have h1 : mUpdate ft.facts q rc q = some (rand (interp ft.facts q) rc) := by
        simp [mUpdate]
      rcases interp_diag hD hq with h2 | h2
      · right; left
        rw [h1, h2, rand_zero]
      · rcases rand_eq_cases rc with h3 | h3
        · right; left
          rw [h1, h2, h3]
        · right; right
          rw [h1, h2, h3]
    · have h1 : mUpdate ft.facts p rc q = ft.facts q := by simp [mUpdate, hqp]
      show mUpdate ft.facts p rc q = none ∨ mUpdate ft.facts p rc q = some 0 ∨
        mUpdate ft.facts p rc q = some eq
      rw [h1]
      exact hD q hq
  · intro e he hd
    rcases List.mem_cons.mp he with he1 | he2
    · subst he1
      exact interp_diag hD hd
    · exact hS e he2 hd

theorem restoreAux_inv (s : List fact) :
    ∀ M : pair → Option relation, InvD M → InvS s →
      InvD (restoreAux M s).1 ∧ InvS (restoreAux M s).2 := by
  induction s with
  | nil =>
    intro M hD hS
    exact ⟨hD, hS⟩
  | cons e rest ih =>
    intro M hD hS
    have hSr : InvS rest := fun x hx => hS x (List.mem_cons_of_mem e hx)
    by_cases he : e = checkpointFact
    · simp only [restoreAux, if_pos he]
      exact ⟨hD, hSr⟩
    · simp only [restoreAux, if_neg he]
      apply ih
      · intro q hq
        by_cases hqp : q = e.p
        · subst hqp
          by_cases hA : e.r = any
          · left
            simp [undoEntry, hA]
          · have hr := hS e (List.mem_cons_self e rest) hq
            rcases hr with h0 | h0
            · right; left
              simp [undoEntry, hA, h0]
              decide
            · right; right
              simp [undoEntry, hA, h0]
              decide
        · have h1 : undoEntry e M q = M q := by simp [undoEntry, hqp]
          rw [h1]
          exact hD q hq
      · exact hSr

theorem reach_inv {ft : factsTable} (h : Reachable ft) :
    InvD ft.facts ∧ InvS ft.stack := by
  induction h with
  | new =>
    constructor
    · intro p hp
      left
      rfl
    · intro e he hd
      have he2 : e = checkpointFact := List.eq_of_mem_replicate he
      subst he2
      left
      rfl
  | upd v w d r hft ih => exact invD_invS_update _ ih.1 ih.2 v w d r
  | cp hft ih =>
    refine ⟨ih.1, ?_⟩
    intro e he hd
    rcases List.mem_cons.mp he with he1 | he2
    · subst he1
      left
      rfl
    · exact ih.2 e he2 hd
  | rst hft ih => exact restoreAux_inv _ _ ih.1 ih.2

/-! Helper lemmas: the undo stack discipline of a bracketed run. -/

theorem restoreAux_skip (pushes : List fact) :
    ∀ (M : pair → Option relation) (s : List fact),
      (∀ e ∈ pushes, e ≠ checkpointFact) →
      restoreAux M (pushes ++ checkpointFact :: s) =
        (pushes.foldl (fun m e => undoEntry e m) M, s) := by
  induction pushes with
  | nil =>
    intro M s h
    simp [restoreAux]
  | cons e rest ih =>
    intro M s h
    have he : e ≠ checkpointFact := h e (List.mem_cons_self e rest)
    simp only [List.cons_append, restoreAux, if_neg he, List.foldl_cons]
    exact ih (undoEntry e M) s (fun x hx => h x (List.mem_cons_of_mem e hx))

theorem runOps_decomp (ops : List tableOp) :
    ∀ ft : factsTable, Inv ft.facts → (∀ op ∈ ops, degenerateOp op = false) →
      ∃ pushes : List fact,
        (runOps ft ops).stack = pushes ++ ft.stack ∧
        (∀ e ∈ pushes, e ≠ checkpointFact) ∧
        (∀ N, mapEquiv N ((runOps ft ops).facts) →
          mapEquiv (pushes.foldl (fun m e => undoEntry e m) N) ft.facts) := by
  induction ops with
  | nil =>
    intro ft hInv hnd
    exact ⟨[], rfl, by simp, fun N h => h⟩
  | cons op rest ih =>
    intro ft hInv hnd
    have hndr : ∀ o ∈ rest, degenerateOp o = false :=
      fun o ho => hnd o (List.mem_cons_of_mem op ho)
    match op, hnd with
    | .getq v w d, hnd =>
      have hrw : runOps ft (.getq v w d :: rest) = runOps ft rest := rfl
      rw [hrw]
      exact ih ft hInv hndr
    | .upd v w d r, hnd =>
      obtain ⟨p, rc, hup, hpd, hpnil⟩ := update_canon ft v w d r
      have hrw : runOps ft (.upd v w d r :: rest) =
          runOps ⟨mUpdate ft.facts p rc, ⟨p, interp ft.facts p⟩ :: ft.stack⟩ rest := by
        unfold runOps
        rw [List.foldl_cons]
        have ha : applyOp ft (.upd v w d r) =
            ⟨mUpdate ft.facts p rc, ⟨p, interp ft.facts p⟩ :: ft.stack⟩ := hup
        rw [ha]
      rw [hrw]
      have hInv2 : Inv (mUpdate ft.facts p rc) := inv_mUpdate hInv p rc
      obtain ⟨pushes1, hstack, hmk, hundo⟩ :=
        ih ⟨mUpdate ft.facts p rc, ⟨p, interp ft.facts p⟩ :: ft.stack⟩ hInv2 hndr
      refine ⟨pushes1 ++ [⟨p, interp ft.facts p⟩], ?_, ?_, ?_⟩
      · rw [hstack]
        simp
      · intro e he
        rcases List.mem_append.mp he with he1 | he2
        · exact hmk e he1
        · have he3 : e = ⟨p, interp ft.facts p⟩ := by
            simpa using he2
          subst he3
          intro hcon
          have hp0 : p = ⟨none, none, 0⟩ := congrArg fact.p hcon
          have hv : p.v = none := by rw [hp0]
          have hw : p.w = none := by rw [hp0]
          have hd0 : p.d = 0 := by rw [hp0]
          obtain ⟨hvn, hwn⟩ := hpnil hv hw
          subst hvn
          subst hwn
          rw [hpd] at hd0
          subst hd0
          have := hnd (.upd none none 0 r) (List.mem_cons_self _ _)
          simp [degenerateOp] at this
      · intro N hN
        rw [List.foldl_append]
        have h1 := hundo N hN
        have h2 := undoEntry_congr ⟨p, interp ft.facts p⟩ h1
        have h3 := undo_mUpdate hInv p rc
        simp only [List.foldl_cons, List.foldl_nil]
        exact mapEquiv_trans h2 h3

/-! Further canonical forms of update and get. -/

theorem getM_eq_interp (M : pair → Option relation) (s : List fact)
    (v w : Option Nat) (d : domain) :
    factsTable.get ⟨M, s⟩ v w d =
      if lessByID w v then reverseBits (interp M ⟨w, v, d⟩)
      else interp M ⟨v, w, d⟩ :=
  get_eq_interp _ v w d

theorem update_noswap (ft : factsTable) {v w : Option Nat} (d : domain) (r : relation)
    (h : lessByID w v = false) :
    ft.update v w d r =
      ⟨mUpdate ft.facts ⟨v, w, d⟩ r,
       ⟨⟨v, w, d⟩, interp ft.facts ⟨v, w, d⟩⟩ :: ft.stack⟩ := by
  simp only [factsTable.update, h, Bool.false_eq_true, if_false, mUpdate,
    get_eq_interp, interp, defaultR]
  rfl

theorem update_swap (ft : factsTable) {v w : Option Nat} (d : domain) (r : relation)
    (h : lessByID w v = true) :
    ft.update v w d r =
      ⟨mUpdate ft.facts ⟨w, v, d⟩ (reverseBits r),
       ⟨⟨w, v, d⟩, interp ft.facts ⟨w, v, d⟩⟩ :: ft.stack⟩ := by
  have hvw : lessByID v w = false := lessByID_asymm h
  simp only [factsTable.update, h, if_true, mUpdate, get_eq_interp, hvw,
    Bool.false_eq_true, if_false]
  rfl

/-- C1 (amended): for a fact table in any reachable state, a sequence of
update and get operations bracketed by a matched checkpoint and restore
preserves the result of every probe get(v, w, d), provided no update of
the sequence has both arguments nil with domain 0 (such an update can
push an undo entry equal to the zero-valued checkpoint marker). -/
theorem claim1_roundtrip_restores_gets (ft : factsTable) (hre : Reachable ft)
    (ops : List tableOp) (hnd : ∀ op ∈ ops, degenerateOp op = false)
    (v w : Option Nat) (d : domain) :
    ((runOps ft.checkpoint ops).restore).get v w d = ft.get v w d := by
  have hinv : Inv ft.facts := invD_inv (reach_inv hre).1
  have hinvc : Inv (ft.checkpoint).facts := hinv
  obtain ⟨pushes, hstack, hmk, hundo⟩ := runOps_decomp ops ft.checkpoint hinvc hnd
  have hstack2 : (runOps ft.checkpoint ops).stack =
      pushes ++ checkpointFact :: ft.stack := hstack
  have hra : restoreAux (runOps ft.checkpoint ops).facts
      ((runOps ft.checkpoint ops).stack) =
      (pushes.foldl (fun m e => undoEntry e m) (runOps ft.checkpoint ops).facts,
        ft.stack) := by
    rw [hstack2]
    exact restoreAux_skip pushes _ ft.stack hmk
  have hrest0 : (runOps ft.checkpoint ops).restore =
      ⟨(restoreAux (runOps ft.checkpoint ops).facts
          ((runOps ft.checkpoint ops).stack)).1,
       (restoreAux (runOps ft.checkpoint ops).facts
          ((runOps ft.checkpoint ops).stack)).2⟩ := rfl
  rw [hrest0, hra]
  have hequiv : mapEquiv
      (pushes.foldl (fun m e => undoEntry e m) (runOps ft.checkpoint ops).facts)
      ft.facts :=
    hundo (runOps ft.checkpoint ops).facts (mapEquiv_refl _)
  exact get_congr hequiv _ _ v w d

/-- C1 witness: a concrete bracketed run whose probes are preserved. -/
theorem claim1_witness :
    ((runOps newFactsTable.checkpoint [tableOp.upd (some 1) (some 2) signed lt]).restore).get
        (some 1) (some 2) signed = newFactsTable.get (some 1) (some 2) signed :=
  claim1_roundtrip_restores_gets newFactsTable Reachable.new
    [tableOp.upd (some 1) (some 2) signed lt]
    (by intro op hop; rw [List.mem_singleton] at hop; subst hop; rfl)
    (some 1) (some 2) signed

/-- C1 counterexample to the claim as stated: in the bracketed sequence
c1ops, the update of the nil pair in domain 0 pushes an undo entry equal
to the zero-valued marker, restore stops there, and the probe of
(1, 2, signed) observes lt after restore although it observed the full
mask before the checkpoint. -/
theorem claim1_counterexample :
    ((runOps newFactsTable.checkpoint c1ops).restore).get (some 1) (some 2) signed = lt ∧
    newFactsTable.get (some 1) (some 2) signed = any ∧
    lt ≠ any := by decide

/-- C4 (amended): after a balanced checkpoint and restore around an
update that stores the full mask on a key already present with the full
mask, every probe is preserved and the stack returns to its previous
value, but the facts map is not bitwise identical: restore deletes the
key instead of keeping it present with the full mask. -/
theorem claim4_restore_deletes_any_keys (ft : factsTable) (v w : Option Nat) (d : domain)
    (h1 : ft.facts ⟨v, w, d⟩ = some any) (h2 : lessByID w v = false) (h3 : v ≠ w) :
    ((ft.checkpoint.update v w d any).restore).facts ⟨v, w, d⟩ = none ∧
    ((ft.checkpoint.update v w d any).restore).stack = ft.stack ∧
    ((ft.checkpoint.update v w d any).restore).get v w d = ft.get v w d := by
  have hip : interp (ft.checkpoint).facts ⟨v, w, d⟩ = any := interp_some h1
  have hu := update_noswap ft.checkpoint d any h2
  rw [hip] at hu
  have hne : (⟨⟨v, w, d⟩, any⟩ : fact) ≠ checkpointFact := by
    intro hcon
    have h4 : (any : relation) = 0 := congrArg fact.r hcon
    exact absurd h4 (by decide)
  have hra : restoreAux (mUpdate (ft.checkpoint).facts ⟨v, w, d⟩ any)
      (⟨⟨v, w, d⟩, any⟩ :: checkpointFact :: ft.stack) =
      (undoEntry ⟨⟨v, w, d⟩, any⟩ (mUpdate ft.facts ⟨v, w, d⟩ any), ft.stack) := by
    simp only [restoreAux, if_neg hne]
    rfl
  have hrest : (ft.checkpoint.update v w d any).restore =
      ⟨undoEntry ⟨⟨v, w, d⟩, any⟩ (mUpdate ft.facts ⟨v, w, d⟩ any), ft.stack⟩ := by
    have h0 : (ft.checkpoint.update v w d any).restore =
        ⟨(restoreAux (mUpdate (ft.checkpoint).facts ⟨v, w, d⟩ any)
            (⟨⟨v, w, d⟩, any⟩ :: checkpointFact :: ft.stack)).1,
         (restoreAux (mUpdate (ft.checkpoint).facts ⟨v, w, d⟩ any)
            (⟨⟨v, w, d⟩, any⟩ :: checkpointFact :: ft.stack)).2⟩ := by
      rw [hu]
      rfl
    rw [h0, hra]
  rw [hrest]
  refine ⟨?_, rfl, ?_⟩
  · show undoEntry ⟨⟨v, w, d⟩, any⟩ (mUpdate ft.facts ⟨v, w, d⟩ any) ⟨v, w, d⟩ = none
    simp [undoEntry]
  · rw [getM_eq_interp, get_eq_interp]
    simp only [h2, Bool.false_eq_true, if_false]
    have h5 : undoEntry ⟨⟨v, w, d⟩, any⟩ (mUpdate ft.facts ⟨v, w, d⟩ any) ⟨v, w, d⟩ = none := by
      simp [undoEntry]
    rw [interp_none h5, interp_some h1]
    unfold defaultR
    simp [h3]

/-- C4 witness: the amended behavior at a concrete table. -/
theorem claim4_witness :
    (((newFactsTable.update (some 1) (some 2) signed any).checkpoint.update
        (some 1) (some 2) signed any).restore).facts ⟨some 1, some 2, signed⟩ = none ∧
    (((newFactsTable.update (some 1) (some 2) signed any).checkpoint.update
        (some 1) (some 2) signed any).restore).stack =
      (newFactsTable.update (some 1) (some 2) signed any).stack ∧
    (((newFactsTable.update (some 1) (some 2) signed any).checkpoint.update
        (some 1) (some 2) signed any).restore).get (some 1) (some 2) signed =
      (newFactsTable.update (some 1) (some 2) signed any).get (some 1) (some 2) signed :=
  claim4_restore_deletes_any_keys (newFactsTable.update (some 1) (some 2) signed any)
    (some 1) (some 2) signed (by decide) (by decide) (by decide)

/-- C4 counterexample to the claim as stated: a key present with the full
mask before the checkpoint is absent after the balanced restore, so the
state is not bitwise identical and the presence of the key is not
reproduced. -/
theorem claim4_counterexample :
    (((newFactsTable.update (some 1) (some 2) signed any).checkpoint.update
        (some 1) (some 2) signed any).restore).facts ⟨some 1, some 2, signed⟩ = none ∧
    (newFactsTable.update (some 1) (some 2) signed any).facts
        ⟨some 1, some 2, signed⟩ = some any := by
  decide

/-- C5: the undo stack of a freshly constructed fact table is not empty:
make([]fact, 4) creates a slice of length four holding four zero-valued
facts (each equal to the checkpoint marker), so the claimed emptiness at
the dominator-tree root fails on the code at the fresh table itself. -/
theorem claim5_new_table_stack_not_empty :
    newFactsTable.stack = List.replicate 4 checkpointFact ∧ newFactsTable.stack ≠ [] :=
  ⟨rfl, by decide⟩

/-- C6: after update(v, w, d, r), the probe get(v, w, d) returns exactly
the prior mask intersected with r, and in particular a subset of it. -/
theorem claim6_update_refines (ft : factsTable) (v w : Option Nat) (d : domain)
    (r : relation) :
    (ft.update v w d r).get v w d = rand (ft.get v w d) r ∧
    sub ((ft.update v w d r).get v w d) (rand (ft.get v w d) r) := by
  have heq : (ft.update v w d r).get v w d = rand (ft.get v w d) r := by
    by_cases h : lessByID w v = true
    · rw [update_swap ft d r h, getM_eq_interp, get_eq_interp]
      simp only [h, if_true]
      have h1 : mUpdate ft.facts ⟨w, v, d⟩ (reverseBits r) ⟨w, v, d⟩ =
          some (rand (interp ft.facts ⟨w, v, d⟩) (reverseBits r)) := by
        simp [mUpdate]
      rw [interp_some h1, reverse_rand, reverse_reverse]
    · simp only [Bool.not_eq_true] at h
      rw [update_noswap ft d r h, getM_eq_interp, get_eq_interp]
      simp only [h, Bool.false_eq_true, if_false]
      have h1 : mUpdate ft.facts ⟨v, w, d⟩ r ⟨v, w, d⟩ =
          some (rand (interp ft.facts ⟨v, w, d⟩) r) := by
        simp [mUpdate]
      rw [interp_some h1]
  refine ⟨heq, ?_⟩
  rw [heq]
  show rand (rand (ft.get v w d) r) (rand (ft.get v w d) r) = rand (ft.get v w d) r
  exact rand_self _

/-- C7: in every reachable state, probes of (v, w) and (w, v) in the same
domain are related by the fixed bit reversal that swaps lt and gt. -/
theorem claim7_get_reverse_symmetry (ft : factsTable) (hre : Reachable ft)
    (v w : Option Nat) (d : domain) :
    ft.get v w d = reverseBits (ft.get w v d) := by
  have hD : InvD ft.facts := (reach_inv hre).1
  by_cases hvw : v = w
  · subst hvw
    have hl : lessByID v v = false := lessByID_irrefl v
    rw [get_eq_interp]
    simp only [hl, Bool.false_eq_true, if_false]
    rcases interp_diag hD (show (⟨v, v, d⟩ : pair).v = (⟨v, v, d⟩ : pair).w from rfl)
      with h | h
    · rw [h, reverse_fix_zero]
    · rw [h, reverse_fix_eq]
  · rcases lessByID_total hvw with h | h
    · have h2 : lessByID w v = false := lessByID_asymm h
      rw [get_eq_interp, get_eq_interp]
      simp only [h, h2, if_true, Bool.false_eq_true, if_false]
      rw [reverse_reverse]
    · have h2 : lessByID v w = false := lessByID_asymm h
      rw [get_eq_interp, get_eq_interp]
      simp only [h, h2, if_true, Bool.false_eq_true, if_false]

/-- C7 witness: the symmetry at a concrete reachable table and probe. -/
theorem claim7_witness :
    newFactsTable.get (some 1) (some 2) signed =
      reverseBits (newFactsTable.get (some 2) (some 1) signed) :=
  claim7_get_reverse_symmetry newFactsTable Reachable.new (some 1) (some 2) signed

/-- C8 (amended): in every reachable state, a diagonal probe get(v, v, d)
returns eq or the empty mask; it returns eq unless an update with both
arguments equal stored a mask excluding eq. -/
theorem claim8_diag_get_subset_eq (ft : factsTable) (hre : Reachable ft)
    (v : Option Nat) (d : domain) :
    ft.get v v d = eq ∨ ft.get v v d = 0 := by
  have hD : InvD ft.facts := (reach_inv hre).1
  have hl : lessByID v v = false := lessByID_irrefl v
  rw [get_eq_interp]
  simp only [hl, Bool.false_eq_true, if_false]
  rcases interp_diag hD (show (⟨v, v, d⟩ : pair).v = (⟨v, v, d⟩ : pair).w from rfl)
    with h | h
  · right
    exact h
  · left
    exact h

/-- C8 witness: the amended statement at a concrete reachable table. -/
theorem claim8_witness :
    newFactsTable.get (some 5) (some 5) unsigned = eq ∨
    newFactsTable.get (some 5) (some 5) unsigned = 0 :=
  claim8_diag_get_subset_eq newFactsTable Reachable.new (some 5) unsigned

/-- C8 counterexample to the claim as stated: after update(v, v, signed,
lt) the stored mask is eq intersected with lt, which is empty, so the
diagonal probe returns 0, not eq. -/
theorem claim8_counterexample :
    (newFactsTable.update (some 1) (some 1) signed lt).get (some 1) (some 1) signed = 0 ∧
    (0 : relation) ≠ eq := by decide

/-- C10: lessByID orders nil strictly before every non-nil value and
returns false on two nils; get and update on a pair containing nil
canonicalize so that nil is the first component of the stored key, both
operations are total on nil arguments, and a probe of the nil pair on
the fresh table returns eq in every domain. -/
theorem claim10_lessByID_nil_canonical :
    (∀ k : Nat, lessByID none (some k) = true) ∧
    lessByID none none = false ∧
    (∀ k : Nat, lessByID (some k) none = false) ∧
    (∀ (ft : factsTable) (k : Nat) (d : domain) (r : relation),
      ft.update (some k) none d r = ft.update none (some k) d (reverseBits r)) ∧
    (∀ (ft : factsTable) (k : Nat) (d : domain),
      ft.get (some k) none d = reverseBits (ft.get none (some k) d)) ∧
    (∀ d : domain, newFactsTable.get none none d = eq) :=
  ⟨fun _ => rfl, rfl, fun _ => rfl, fun _ _ _ _ => rfl, fun _ _ _ => rfl, fun _ => rfl⟩

/-- C3: getBranch returns unknown for a nil or non-If dominator;
otherwise it returns positive when successor 0 dominates-or-equals b and
has exactly one predecessor, else negative when successor 1 does, else
unknown. -/
theorem claim3_getBranch_cases (isAncestorEq : Block → Block → Bool) (b : Block) :
    getBranch isAncestorEq none b = branch.unknown ∧
    (∀ p : Block, p.kind ≠ BlockKind.BlockIf →
      getBranch isAncestorEq (some p) b = branch.unknown) ∧
    (∀ (p s0 s1 : Block) (rest : List Block), p.kind = BlockKind.BlockIf →
      p.succs = s0 :: s1 :: rest →
      getBranch isAncestorEq (some p) b =
        if isAncestorEq s0 b ∧ s0.preds.length = 1 then branch.positive
        else if isAncestorEq s1 b ∧ s1.preds.length = 1 then branch.negative
        else branch.unknown) := by
  refine ⟨rfl, ?_, ?_⟩
  · intro p hp
    show (match some p with
      | none => branch.unknown
      | some p =>
        if p.kind ≠ BlockKind.BlockIf then branch.unknown
        else
          match p.succs with
          | s0 :: s1 :: _ =>
            if isAncestorEq s0 b ∧ s0.preds.length = 1 then branch.positive
            else if isAncestorEq s1 b ∧ s1.preds.length = 1 then branch.negative
            else branch.unknown
          | _ => branch.unknown) = branch.unknown
    rw [show (match some p with
      | none => branch.unknown
      | some p =>
        if p.kind ≠ BlockKind.BlockIf then branch.unknown
        else
          match p.succs with
          | s0 :: s1 :: _ =>
            if isAncestorEq s0 b ∧ s0.preds.length = 1 then branch.positive
            else if isAncestorEq s1 b ∧ s1.preds.length = 1 then branch.negative
            else branch.unknown
          | _ => branch.unknown) =
      (if p.kind ≠ BlockKind.BlockIf then branch.unknown
        else
          match p.succs with
          | s0 :: s1 :: _ =>
            if isAncestorEq s0 b ∧ s0.preds.length = 1 then branch.positive
            else if isAncestorEq s1 b ∧ s1.preds.length = 1 then branch.negative
            else branch.unknown
          | _ => branch.unknown) from rfl]
    rw [if_pos hp]
  · intro p s0 s1 rest hk hs
    show (if p.kind ≠ BlockKind.BlockIf then branch.unknown
      else
        match p.succs with
        | s0 :: s1 :: _ =>
          if isAncestorEq s0 b ∧ s0.preds.length = 1 then branch.positive
          else if isAncestorEq s1 b ∧ s1.preds.length = 1 then branch.negative
          else branch.unknown
        | _ => branch.unknown) = _
    rw [if_neg (by simp [hk]), hs]

/-- C3 witness: a concrete If dominator whose first successor dominates b
with a single predecessor yields positive. -/
theorem claim3_witness :
    getBranch (fun _ _ => true)
      (some (Block.mk 0 BlockKind.BlockIf none
        [Block.mk 1 BlockKind.BlockFirst none [] [7],
         Block.mk 2 BlockKind.BlockFirst none [] [7, 8]] []))
      (Block.mk 3 BlockKind.BlockFirst none [] []) = branch.positive := by
  have h := (claim3_getBranch_cases (fun _ _ => true)
      (Block.mk 3 BlockKind.BlockFirst none [] [])).2.2
      (Block.mk 0 BlockKind.BlockIf none
        [Block.mk 1 BlockKind.BlockFirst none [] [7],
         Block.mk 2 BlockKind.BlockFirst none [] [7, 8]] [])
      (Block.mk 1 BlockKind.BlockFirst none [] [7])
      (Block.mk 2 BlockKind.BlockFirst none [] [7, 8]) [] rfl rfl
  simpa [Block.preds] using h

/-- C9: isNonNegative is true on a 64-bit constant exactly when its
payload is non-negative, true on string and slice lengths, capacities and
zero extensions, recursive on the left operand of a right shift, and
false on every other opcode. -/
theorem claim9_isNonNegative_cases :
    (∀ (i : Nat) (aux : Int) (args : List Value),
      isNonNegative ⟨i, Op.OpConst64, aux, args⟩ = decide (0 ≤ aux)) ∧
    (∀ (i : Nat) (op : Op) (aux : Int) (args : List Value),
      op ∈ [Op.OpStringLen, Op.OpSliceLen, Op.OpSliceCap,
            Op.OpZeroExt8to64, Op.OpZeroExt16to64, Op.OpZeroExt32to64] →
      isNonNegative ⟨i, op, aux, args⟩ = true) ∧
    (∀ (i : Nat) (aux : Int) (a : Value) (rest : List Value),
      isNonNegative ⟨i, Op.OpRsh64x64, aux, a :: rest⟩ = isNonNegative a) ∧
    (∀ (i : Nat) (op : Op) (aux : Int) (args : List Value),
      op ∉ [Op.OpConst64, Op.OpStringLen, Op.OpSliceLen, Op.OpSliceCap,
            Op.OpZeroExt8to64, Op.OpZeroExt16to64, Op.OpZeroExt32to64, Op.OpRsh64x64] →
      isNonNegative ⟨i, op, aux, args⟩ = false) := by
  refine ⟨fun i aux args => rfl, ?_, fun i aux a rest => rfl, ?_⟩
  · intro i op aux args h
    fin_cases h <;> rfl
  · intro i op aux args h
    cases op <;> simp_all [isNonNegative]

/-- C9 witness: concrete evaluations of the characterization. -/
theorem claim9_witness :
    isNonNegative ⟨1, Op.OpSliceLen, 0, []⟩ = true ∧
    isNonNegative ⟨2, Op.OpOther 0, 0, []⟩ = false :=
  ⟨claim9_isNonNegative_cases.2.1 1 Op.OpSliceLen 0 [] (by decide),
   claim9_isNonNegative_cases.2.2.2 2 (Op.OpOther 0) 0 [] (by decide)⟩

/-! Helper lemmas for the relational step of simplifyBlock: single steps
of the domain loop, the domain unions the opcode table can produce, and
the equivalence of the loop with the claim-side iteration. -/

theorem loop_exit (getd : domain → relation) (trD : domain) (trR : relation)
    (fuel d : Nat) (h1 : trD < d) :
    simplifyDomLoop getd trD trR (fuel + 1) d = branch.unknown := by
  simp only [simplifyDomLoop, if_pos h1]

theorem loop_skip (getd : domain → relation) (trD : domain) (trR : relation)
    (fuel d : Nat) (h1 : ¬ trD < d) (h2 : d &&& trD = 0) :
    simplifyDomLoop getd trD trR (fuel + 1) d =
      simplifyDomLoop getd trD trR fuel (d <<< 1) := by
  simp only [simplifyDomLoop, if_neg h1, if_pos h2]

theorem loop_test (getd : domain → relation) (trD : domain) (trR : relation)
    (fuel d : Nat) (h1 : ¬ trD < d) (h2 : ¬ d &&& trD = 0) :
    simplifyDomLoop getd trD trR (fuel + 1) d =
      (if getd d ≠ 0 ∧ rand trR (getd d) = getd d then branch.positive
       else if getd d ≠ 0 ∧ rand (rxor (ror lt (ror eq gt)) trR) (getd d) = getd d
         then branch.negative
       else simplifyDomLoop getd trD trR fuel (d <<< 1)) := by
  simp only [simplifyDomLoop, if_neg h1, if_neg h2]

theorem table_dU (op : Op) (e : domain × relation)
    (h : domainRelationTable op = some e) :
    e.1 = 3 ∨ e.1 = 1 ∨ e.1 = 2 ∨ e.1 = 4 := by
  cases op <;>
    first
      | exact Option.noConfusion h
      | (injection h with h2; rw [← h2]; decide)

theorem claimDecide_ne_unknown (getd : domain → relation) (rPos : relation)
    (d : domain) (br : branch) (h : claimDecide getd rPos d = some br) :
    br = branch.positive ∨ br = branch.negative := by
  simp only [claimDecide] at h
  split_ifs at h with h1 h2
  · left
    injection h with h3
    exact h3.symm
  · right
    injection h with h3
    exact h3.symm

theorem claimIterate_ne_unknown (getd : domain → relation) (dU : domain)
    (rPos : relation) (br : branch) (h : claimIterate getd dU rPos = some br) :
    br = branch.positive ∨ br = branch.negative := by
  unfold claimIterate at h
  obtain ⟨d, -, hd⟩ := List.exists_of_findSome?_eq_some h
  exact claimDecide_ne_unknown getd rPos d br hd

theorem loop_eq_iterate (getd : domain → relation) (trD : domain) (trR : relation)
    (h : trD = 3 ∨ trD = 1 ∨ trD = 2 ∨ trD = 4) :
    simplifyDomLoop getd trD trR (trD + 1) 1 =
      (claimIterate getd trD trR).getD branch.unknown := by
  rcases h with rfl | rfl | rfl | rfl
  · have hf : (([1, 2, 4, 8] : List domain).filter (fun d => d &&& 3 != 0)) = [1, 2] := rfl
    have hL1 := loop_test getd 3 trR 3 1 (by decide) (by decide)
    have hL2 : simplifyDomLoop getd 3 trR 3 (1 <<< 1) =
        (if getd 2 ≠ 0 ∧ rand trR (getd 2) = getd 2 then branch.positive
         else if getd 2 ≠ 0 ∧ rand (rxor (ror lt (ror eq gt)) trR) (getd 2) = getd 2
           then branch.negative
         else simplifyDomLoop getd 3 trR 2 (2 <<< 1)) := by
      show simplifyDomLoop getd 3 trR (2 + 1) 2 = _
      exact loop_test getd 3 trR 2 2 (by decide) (by decide)
    have hL3 : simplifyDomLoop getd 3 trR 2 (2 <<< 1) = branch.unknown := by
      show simplifyDomLoop getd 3 trR (1 + 1) 4 = branch.unknown
      exact loop_exit getd 3 trR 1 4 (by decide)
    rw [hL1, hL2, hL3]
    unfold claimIterate
    rw [hf]
    by_cases hA1 : getd 1 = 0 <;> by_cases hP1 : rand trR (getd 1) = getd 1 <;>
      by_cases hN1 : rand (rxor (ror lt (ror eq gt)) trR) (getd 1) = getd 1 <;>
      by_cases hA2 : getd 2 = 0 <;> by_cases hP2 : rand trR (getd 2) = getd 2 <;>
      by_cases hN2 : rand (rxor (ror lt (ror eq gt)) trR) (getd 2) = getd 2 <;>
      simp [claimDecide, sub, any, List.findSome?_cons, hA1, hP1, hN1, hA2, hP2, hN2]
  · have hf : (([1, 2, 4, 8] : List domain).filter (fun d => d &&& 1 != 0)) = [1] := rfl
    have hL1 := loop_test getd 1 trR 1 1 (by decide) (by decide)
    have hL2 : simplifyDomLoop getd 1 trR 1 (1 <<< 1) = branch.unknown := by
      show simplifyDomLoop getd 1 trR (0 + 1) 2 = branch.unknown
      exact loop_exit getd 1 trR 0 2 (by decide)
    rw [hL1, hL2]
    unfold claimIterate
    rw [hf]
    by_cases hA1 : getd 1 = 0 <;> by_cases hP1 : rand trR (getd 1) = getd 1 <;>
      by_cases hN1 : rand (rxor (ror lt (ror eq gt)) trR) (getd 1) = getd 1 <;>
      simp [claimDecide, sub, any, List.findSome?_cons, hA1, hP1, hN1]
  · have hf : (([1, 2, 4, 8] : List domain).filter (fun d => d &&& 2 != 0)) = [2] := rfl
    have hL1 : simplifyDomLoop getd 2 trR (2 + 1) 1 = simplifyDomLoop getd 2 trR 2 (1 <<< 1) :=
      loop_skip getd 2 trR 2 1 (by decide) (by decide)
    have hL2 : simplifyDomLoop getd 2 trR 2 (1 <<< 1) =
        (if getd 2 ≠ 0 ∧ rand trR (getd 2) = getd 2 then branch.positive
         else if getd 2 ≠ 0 ∧ rand (rxor (ror lt (ror eq gt)) trR) (getd 2) = getd 2
           then branch.negative
         else simplifyDomLoop getd 2 trR 1 (2 <<< 1)) := by
      show simplifyDomLoop getd 2 trR (1 + 1) 2 = _
      exact loop_test getd 2 trR 1 2 (by decide) (by decide)
    have hL3 : simplifyDomLoop getd 2 trR 1 (2 <<< 1) = branch.unknown := by
      show simplifyDomLoop getd 2 trR (0 + 1) 4 = branch.unknown
      exact loop_exit getd 2 trR 0 4 (by decide)
    rw [hL1, hL2, hL3]
    unfold claimIterate
    rw [hf]
    by_cases hA2 : getd 2 = 0 <;> by_cases hP2 : rand trR (getd 2) = getd 2 <;>
      by_cases hN2 : rand (rxor (ror lt (ror eq gt)) trR) (getd 2) = getd 2 <;>
      simp [claimDecide, sub, any, List.findSome?_cons, hA2, hP2, hN2]
  · have hf : (([1, 2, 4, 8] : List domain).filter (fun d => d &&& 4 != 0)) = [4] := rfl
    have hL1 : simplifyDomLoop getd 4 trR (4 + 1) 1 = simplifyDomLoop getd 4 trR 4 (1 <<< 1) :=
      loop_skip getd 4 trR 4 1 (by decide) (by decide)
    have hL2 : simplifyDomLoop getd 4 trR 4 (1 <<< 1) = simplifyDomLoop getd 4 trR 3 (2 <<< 1) := by
      show simplifyDomLoop getd 4 trR (3 + 1) 2 = _
      exact loop_skip getd 4 trR 3 2 (by decide) (by decide)
    have hL3 : simplifyDomLoop getd 4 trR 3 (2 <<< 1) =
        (if getd 4 ≠ 0 ∧ rand trR (getd 4) = getd 4 then branch.positive
         else if getd 4 ≠ 0 ∧ rand (rxor (ror lt (ror eq gt)) trR) (getd 4) = getd 4
           then branch.negative
         else simplifyDomLoop getd 4 trR 2 (4 <<< 1)) := by
      show simplifyDomLoop getd 4 trR (2 + 1) 4 = _
      exact loop_test getd 4 trR 2 4 (by decide) (by decide)
    have hL4 : simplifyDomLoop getd 4 trR 2 (4 <<< 1) = branch.unknown := by
      show simplifyDomLoop getd 4 trR (1 + 1) 8 = branch.unknown
      exact loop_exit getd 4 trR 1 8 (by decide)
    rw [hL1, hL2, hL3, hL4]
    unfold claimIterate
    rw [hf]
    by_cases hA4 : getd 4 = 0 <;> by_cases hP4 : rand trR (getd 4) = getd 4 <;>
      by_cases hN4 : rand (rxor (ror lt (ror eq gt)) trR) (getd 4) = getd 4 <;>
      simp [claimDecide, sub, any, List.findSome?_cons, hA4, hP4, hN4]

/-- C2 (amended): on an If block whose control opcode has a table entry
(d union, r positive) and whose boolean-domain query did not decide,
simplifyBlock iterates the single-bit domains of the union in ascending
bit order and returns the first decision (positive when the mask is
non-zero and inside the positive set, negative when non-zero and inside
its complement); an empty mask never decides; when no iterated domain
decides, the result is that of the non-negative bounds shortcut, which
can still return positive. -/
theorem claim2_simplify_relational (ft : factsTable) (b : Block) (c : Value)
    (trD : domain) (trR : relation) (a0 a1 : Value) (rest : List Value)
    (hk : b.kind = BlockKind.BlockIf)
    (hc : b.control = some c)
    (ht : domainRelationTable c.op = some (trD, trR))
    (ha : c.args = a0 :: a1 :: rest)
    (hb1 : ft.get none (some c.id) boolean ≠ ror lt gt)
    (hb2 : ft.get none (some c.id) boolean ≠ eq) :
    simplifyBlock ft b =
      match claimIterate (fun d => ft.get (some a0.id) (some a1.id) d) trD trR with
      | some br => br
      | none => claimShortcut ft c a0 a1 trR := by
  have hdu : trD = 3 ∨ trD = 1 ∨ trD = 2 ∨ trD = 4 := table_dU c.op (trD, trR) ht
  simp only [simplifyBlock, hk, hc, ht, ha, Option.map_some', ne_eq,
    not_true_eq_false, Bool.false_eq_true, if_false, ite_false]
  rw [if_neg hb1, if_neg hb2]
  rw [loop_eq_iterate (fun d => ft.get (some a0.id) (some a1.id) d) trD trR hdu]
  cases hI : claimIterate (fun d => ft.get (some a0.id) (some a1.id) d) trD trR with
  | none => simp [claimShortcut, sub]
  | some br => rcases claimIterate_ne_unknown _ _ _ br hI with rfl | rfl <;> simp

/-- C2 witness: a concrete If block with a table opcode and an undecided
boolean query on which simplifyBlock agrees with the claim-side
iteration (here everything is undecided and the result is unknown). -/
theorem claim2_witness :
    simplifyBlock newFactsTable
        (Block.mk 20 BlockKind.BlockIf
          (some (Value.mk 3 Op.OpLess64 0
            [Value.mk 1 Op.OpConst64 0 [], Value.mk 2 Op.OpConst64 1 []]))
          [] []) =
      match claimIterate
          (fun d => newFactsTable.get (some (Value.mk 1 Op.OpConst64 0 []).id)
            (some (Value.mk 2 Op.OpConst64 1 []).id) d) signed lt with
      | some br => br
      | none =>
        claimShortcut newFactsTable
          (Value.mk 3 Op.OpLess64 0
            [Value.mk 1 Op.OpConst64 0 [], Value.mk 2 Op.OpConst64 1 []])
          (Value.mk 1 Op.OpConst64 0 []) (Value.mk 2 Op.OpConst64 1 []) lt :=
  claim2_simplify_relational newFactsTable
    (Block.mk 20 BlockKind.BlockIf
      (some (Value.mk 3 Op.OpLess64 0
        [Value.mk 1 Op.OpConst64 0 [], Value.mk 2 Op.OpConst64 1 []]))
      [] [])
    (Value.mk 3 Op.OpLess64 0
      [Value.mk 1 Op.OpConst64 0 [], Value.mk 2 Op.OpConst64 1 []])
    signed lt (Value.mk 1 Op.OpConst64 0 []) (Value.mk 2 Op.OpConst64 1 []) []
    rfl rfl rfl rfl (by decide) (by decide)

/-- C2 counterexample to the claim as stated: all premises of the claim
hold, the only iterated domain (unsigned) has the empty mask, so by the
claim the block is left not-proven; the code instead proves the block
positive through the non-negative bounds shortcut in the signed
domain. -/
theorem claim2_counterexample :
    cexBlock.kind = BlockKind.BlockIf ∧
    cexBlock.control = some cexCtl ∧
    domainRelationTable cexCtl.op = some (unsigned, lt) ∧
    cexFT.get none (some cexCtl.id) boolean ≠ ror lt gt ∧
    cexFT.get none (some cexCtl.id) boolean ≠ eq ∧
    cexFT.get (some cexA0.id) (some cexA1.id) unsigned = 0 ∧
    claimIterate (fun d => cexFT.get (some cexA0.id) (some cexA1.id) d) unsigned lt = none ∧
    simplifyBlock cexFT cexBlock = branch.positive := by
  refine ⟨rfl, rfl, rfl, by decide, by decide, by decide, by decide, by decide⟩

end Ssa
